import Mathlib

/-!
# Verification of the Nexus flashcard study engine

Shallow embedding of the session-construction algorithm (`src/lib/session.ts`),
the review-loop grading logic (`src/components/Reviewer.tsx`), the card-store
write `updateConfidence` (`src/db/index.ts`), and the end-of-session summary
(`SessionSummary` in `src/components/HtmlRenderer.tsx`).

Conventions of the embedding:
* JavaScript numbers holding integer values (ids, confidence scores,
  epoch-millisecond timestamps, intensities) are modelled as `Int`.
* `Math.round(intensity * f)` for `f ∈ {0.6, 0.3, 0.1}`: ECMAScript
  `Math.round x` is `⌊x + 1/2⌋` on the exact value of the double `x`.  For
  every integer intensity with `|intensity| ≤ 500` (far beyond the UI range
  5–100) the double products `intensity * 0.6/0.3/0.1` round to the same
  integer as the exact rational products, so the per-tier counts are embedded
  with exact integer arithmetic: `⌊(num * intensity + den/2) / den⌋`.
* `Array.prototype.slice(0, end)` with a possibly negative `end` is embedded
  by `jsSliceEnd` below, following the ECMAScript clamping rules.
* `Array.prototype.sort` with comparator `(a, b) => a.last_seen_at - b.last_seen_at`
  is required by ECMAScript 2019 to be a stable sort; the unique stable
  ascending-by-key sort is computed here by `List.insertionSort`, which is
  stable for a total preorder.
* The floating-point "quality percentage" of `SessionSummary` is embedded with
  an exact model of IEEE-754 binary64 round-to-nearest-even (`fl64` below),
  since `Math.round((sum / (total * 5)) * 100)` is sensitive to the binary64
  rounding of the intermediate quotient at exact `.5` ties.
-/

set_option maxRecDepth 100000
set_option maxHeartbeats 1000000

/-- Scheduling view of a card, the record `buildSession` operates on
(`Card` in `src/types.ts`: `id`, `confidence_score`, `last_seen_at`; the
opaque content payload travels with the record unchanged and is irrelevant
to the algorithms, so it is omitted from the embedding). -/
structure Card where
  id : Int
  confidence_score : Int
  last_seen_at : Int
deriving DecidableEq, Repr

/-- The comparator `(a, b) => a.last_seen_at - b.last_seen_at`: ascending
order of `last_seen_at`. -/
def tsLe (a b : Card) : Prop := a.last_seen_at ≤ b.last_seen_at

instance : DecidableRel tsLe := fun a b =>
  inferInstanceAs (Decidable (a.last_seen_at ≤ b.last_seen_at))

instance : IsTotal Card tsLe := ⟨fun a b => Int.le_total a.last_seen_at b.last_seen_at⟩

instance : IsTrans Card tsLe := ⟨fun _ _ _ h h' => le_trans h h'⟩

/-- Model of `.sort((a, b) => a.last_seen_at - b.last_seen_at)`: the stable ascending
sort by `last_seen_at` mandated by ECMAScript for `Array.prototype.sort`. -/
def sortByLastSeen (l : List Card) : List Card := List.insertionSort tsLe l

/-- Model of `Math.round(intensity * 0.60)`: exact integer form `⌊(6i + 5)/10⌋`
(`Math.round x = ⌊x + 1/2⌋`; the double product agrees with the exact
rational for the whole intensity range, see the file header). -/
def nLow (intensity : Int) : Int := (6 * intensity + 5) / 10

/-- Model of `Math.round(intensity * 0.30)` as `⌊(3i + 5)/10⌋`. -/
def nMedium (intensity : Int) : Int := (3 * intensity + 5) / 10

/-- Model of `Math.round(intensity * 0.10)` as `⌊(i + 5)/10⌋`. -/
def nMastered (intensity : Int) : Int := (intensity + 5) / 10

/-- Model of `l.slice(0, e)` for an integer `e` (ECMAScript semantics: a negative end
index counts from the end of the array; the start index here is always 0). -/
def jsSliceEnd {α : Type} (l : List α) (e : Int) : List α :=
  if e < 0 then l.take ((l.length + e).toNat) else l.take e.toNat

/-- The function `buildSession` from `src/lib/session.ts`, line for line:
filter each confidence tier, sort it by `last_seen_at` ascending, take the
per-tier quota with `slice(0, n)`, concatenate, truncate with
`slice(0, intensity)`. -/
def buildSession (cards : List Card) (intensity : Int) : List Card :=
  let low := sortByLastSeen (cards.filter fun c => decide (c.confidence_score ≤ 2))
  let medium := sortByLastSeen (cards.filter fun c =>
    decide (c.confidence_score = 3 ∨ c.confidence_score = 4))
  let mastered := sortByLastSeen (cards.filter fun c => decide (c.confidence_score = 5))
  jsSliceEnd
    (jsSliceEnd low (nLow intensity) ++
      jsSliceEnd medium (nMedium intensity) ++
      jsSliceEnd mastered (nMastered intensity))
    intensity

/-- The tier of a card, as an index in presentation order: low
(`confidence_score ≤ 2`) ↦ 0, medium (3 or 4) ↦ 1, mastered (5) ↦ 2.
(Cards outside 0–5 never enter a session queue.) -/
def tierRank (c : Card) : Int :=
  if c.confidence_score ≤ 2 then 0 else if c.confidence_score = 5 then 2 else 1

/-! ## Card store (`src/db/index.ts`) -/

/-- One row of the `cards` table (scheduling state only; content lives in
`notes`). -/
structure DbCard where
  id : Int
  note_id : Int
  confidence_score : Int
  last_seen_at : Int
deriving DecidableEq, Repr

/-- One row of the `notes` table.  Only the identity and the fact that
`updateConfidence` never touches content matter here, so the content columns
(front, back, images, extra) are collapsed into one opaque field. -/
structure Note where
  id : Int
  deck_id : Int
  content : String
deriving DecidableEq, Repr

/-- The persistent store: the `cards` and `notes` tables. -/
structure Db where
  cards : List DbCard
  notes : List Note
deriving DecidableEq, Repr

/-- The write `updateConfidence` from `src/db/index.ts`:
`UPDATE cards SET confidence_score = $1, last_seen_at = $2 WHERE id = $3`
with `$2 = Date.now()` (passed here as `now`).  It touches no other column,
no other row, and not the `notes` table. -/
def updateConfidence (cardId score now : Int) (db : Db) : Db :=
  { cards := db.cards.map fun r =>
      if r.id = cardId then
        { r with confidence_score := score, last_seen_at := now }
      else r,
    notes := db.notes }

/-! ## Review loop (`src/components/Reviewer.tsx`) -/

/-- One entry of the in-memory results list (`SessionResult` in
`src/types.ts`): `{ cardId, score }`. -/
structure SessionResult where
  cardId : Int
  score : Int
deriving DecidableEq, Repr

/-- One `updateConfidence` call issued to the card store, recorded for the
write-counting argument of the exit-mid-session property. -/
structure WriteEvent where
  cardId : Int
  score : Int
  ts : Int
deriving DecidableEq, Repr

/-- The visible state of the review loop: `presenting i flipped results`
models `Presenting(cardIndex = i, side = if flipped then back else front)`
with the accumulated `resultsRef` list; `complete results` is the terminal
state reached through `onSessionComplete(results)`; `exited results` is the
state after the End-Session button (`onExit`). -/
inductive LoopState where
  | presenting (idx : Nat) (flipped : Bool) (results : List SessionResult)
  | complete (results : List SessionResult)
  | exited (results : List SessionResult)
deriving DecidableEq, Repr

/-- The user interactions of `Reviewer`: Space / click (`setIsFlipped (f => !f)`),
a grade button or digit key (`handleGrade`), and End Session (`onExit`). -/
inductive ReviewAction where
  | flip
  | grade (score : Int)
  | exit
deriving DecidableEq, Repr

/-- One step of the review loop, from `Reviewer.tsx`.

* `flip` toggles the card side.
* `grade s` is only effective on the back side (`isFlipped` guards both the
  buttons and the digit keys); it performs `await updateConfidence(card.id, score)`
  — one immediate store write, recorded in the write log — appends
  `{ cardId: card.id, score }` to the results, and either advances to the
  next card at the front side or completes the session when the queue is
  exhausted (`currentIndex + 1 >= queue.length`).
* `exit` abandons the session; terminal states absorb every action. -/
def reviewStep (queue : List Card) (now : Int) :
    LoopState × Db × List WriteEvent → ReviewAction → LoopState × Db × List WriteEvent
  | (.presenting i f res, db, log), .flip => (.presenting i (!f) res, db, log)
  | (.presenting i true res, db, log), .grade s =>
      if h : i < queue.length then
        (if i + 1 ≥ queue.length then .complete (res ++ [⟨(queue.get ⟨i, h⟩).id, s⟩])
         else .presenting (i + 1) false (res ++ [⟨(queue.get ⟨i, h⟩).id, s⟩]),
          updateConfidence (queue.get ⟨i, h⟩).id s now db,
          log ++ [⟨(queue.get ⟨i, h⟩).id, s, now⟩])
      else (.presenting i true res, db, log)
  | (.presenting i false res, db, log), .grade _ => (.presenting i false res, db, log)
  | (.presenting _ _ res, db, log), .exit => (.exited res, db, log)
  | (.complete res, db, log), _ => (.complete res, db, log)
  | (.exited res, db, log), _ => (.exited res, db, log)

/-! ## Session summary (`SessionSummary` in `src/components/HtmlRenderer.tsx`) -/

/-- Computes `⌊log₂ n⌋` by structural recursion on a fuel argument, so that the kernel
can evaluate it (`Nat.log2` is defined by well-founded recursion and does not
reduce). -/
def natLog2Aux : Nat → Nat → Nat
  | 0, _ => 0
  | fuel + 1, n => if n < 2 then 0 else natLog2Aux fuel (n / 2) + 1

/-- Computes `⌊log₂ n⌋` for `n < 2 ^ 300` (and 0 for `n ≤ 1`). -/
def natLog2 (n : Nat) : Nat := natLog2Aux 300 n

/-- Round-to-nearest-even of the quotient `a / b` (for `b > 0`) to an
integer: the quotient is rounded to the closer integer, halves to the even
one — the IEEE-754 default rounding at integer granularity. -/
def rneDiv (a b : Int) : Int :=
  if 2 * (a % b) < b then a / b
  else if b < 2 * (a % b) then a / b + 1
  else if (a / b) % 2 = 0 then a / b else a / b + 1

/-- Exact model of rounding the positive rational `a / b` to IEEE-754
binary64 (round-to-nearest-even): the result is the pair `(m, k)`
representing the double `m / 2 ^ k`.  Valid for `2 ^ (-140) ≤ a / b < 2 ^ 52`
— far wider than the values arising in the summary (quotients in `(0, 1]`
and percentages in `(0, 200)`), so subnormals and overflow never arise;
outside that range (never reached) the result is `(0, 0)`. -/
def fl64Div (a b : Int) : Int × Nat :=
  if a * 2 ^ 140 / b ≤ 0 then (0, 0)
  else
    (rneDiv (a * 2 ^ (52 - ((natLog2 (a * 2 ^ 140 / b).toNat : Int) - 140)).toNat) b,
      (52 - ((natLog2 (a * 2 ^ 140 / b).toNat : Int) - 140)).toNat)

/-- Model of `results.reduce((sum, r) => sum + r.score, 0)`. -/
def sumScores (results : List SessionResult) : Int :=
  results.foldl (fun sum r => sum + r.score) 0

/-- The per-bucket counts of `SessionSummary`:
`[1,2,3,4,5].map(score => ({score, count: results.filter(r => r.score === score).length}))`. -/
def sessionCounts (results : List SessionResult) : List (Int × Nat) :=
  [1, 2, 3, 4, 5].map fun score =>
    (score, (results.filter fun r => decide (r.score = score)).length)

/-- The quality percentage of `SessionSummary`:
`total > 0 ? Math.round((results.reduce(...) / (total * 5)) * 100) : 0`.
The two binary64 operations are modelled exactly: `p1` is the double
`sum / (total * 5)` (IEEE division = rounding of the exact quotient), `p2`
is the double `p1 * 100` (IEEE product = rounding of the exact product
`100 * m1 / 2 ^ k1`), and `Math.round` on the non-negative double
`m2 / 2 ^ k2` is `⌊m2 / 2 ^ k2 + 1/2⌋ = ⌊(2 * m2 + 2 ^ k2) / 2 ^ (k2 + 1)⌋`,
half ties toward `+∞`. -/
def weightedAvg (results : List SessionResult) : Int :=
  let total : Int := results.length
  if 0 < total then
    let p1 := fl64Div (sumScores results) (total * 5)
    let p2 := fl64Div (100 * p1.1) (2 ^ p1.2)
    (2 * p2.1 + 2 ^ p2.2) / 2 ^ (p2.2 + 1)
  else 0

/-- The claim's reading of the summary formula, in exact arithmetic:
`sum(scores) / (count * 5) * 100` rounded to the nearest integer with half
ties upward (`⌊x + 1/2⌋`), i.e. `⌊(2·(sum·100) + count·5) / (2·(count·5))⌋`.
Stated from the spec's words for comparison with `weightedAvg`, which is the
code's floating-point computation. -/
def specQualityPercent (results : List SessionResult) : Int :=
  (2 * (sumScores results * 100) + (results.length : Int) * 5) /
    (2 * ((results.length : Int) * 5))

/-! ## Concrete inputs used by counterexamples and witnesses -/

/-- 100 low-tier cards (never graded, never seen), ids 1–100. -/
def pool100 : List Card := (List.range 100).map fun j => ⟨j + 1, 0, 0⟩

/-- 10 freshly created cards: all `confidence_score = 0`, `last_seen_at = 0`. -/
def pool10 : List Card := (List.range 10).map fun j => ⟨j + 1, 0, 0⟩

/-- 3 low cards (scores 0, 1, 2), 2 medium (3, 4), 1 mastered (5), all
never seen. -/
def pool321 : List Card :=
  [⟨1, 0, 0⟩, ⟨2, 1, 0⟩, ⟨3, 2, 0⟩, ⟨4, 3, 0⟩, ⟨5, 4, 0⟩, ⟨6, 5, 0⟩]

/-- Eight grade events summing to 23 (seven 3s and one 2): the exact quality
percentage is 57.5. -/
def results23 : List SessionResult :=
  [⟨1, 3⟩, ⟨2, 3⟩, ⟨3, 3⟩, ⟨4, 3⟩, ⟨5, 3⟩, ⟨6, 3⟩, ⟨7, 3⟩, ⟨8, 2⟩]

/-- A 2-card queue for the grade-transition witness. -/
def queue2 : List Card := [⟨11, 0, 0⟩, ⟨12, 3, 0⟩]

/-- A 3-card queue for the exit-mid-session witness. -/
def queue3 : List Card := [⟨21, 0, 0⟩, ⟨22, 1, 0⟩, ⟨23, 4, 0⟩]

/-- A small card store: three card rows and one note row. -/
def db3 : Db :=
  { cards := [⟨21, 101, 0, 0⟩, ⟨22, 102, 1, 0⟩, ⟨23, 103, 4, 0⟩],
    notes := [⟨101, 1, "front/back"⟩] }

/-! ## Helper lemmas about the builder's pieces -/

theorem jsSliceEnd_sublist {α : Type} (l : List α) (e : Int) :
    (jsSliceEnd l e).Sublist l := by
  unfold jsSliceEnd
  split <;> exact List.take_sublist _ _

theorem jsSliceEnd_length_of_nonneg {α : Type} (l : List α) (e : Int) (he : 0 ≤ e) :
    ((jsSliceEnd l e).length : Int) = min e l.length := by
  unfold jsSliceEnd
  rw [if_neg (by omega)]
  rw [List.length_take]
  omega

theorem sortByLastSeen_perm (l : List Card) : (sortByLastSeen l).Perm l :=
  List.perm_insertionSort tsLe l

theorem sortByLastSeen_sorted (l : List Card) : List.Sorted tsLe (sortByLastSeen l) :=
  List.sorted_insertionSort tsLe l

/-- Stability of `orderedInsert` at the level of equal-timestamp classes:
inserting `a` commutes with filtering by any fixed timestamp, because every
element placed before `a` has a strictly smaller timestamp. -/
theorem orderedInsert_filter_ts (a : Card) (l : List Card) (t : Int) :
    (List.orderedInsert tsLe a l).filter (fun c => decide (c.last_seen_at = t)) =
      if a.last_seen_at = t then
        a :: l.filter (fun c => decide (c.last_seen_at = t))
      else l.filter (fun c => decide (c.last_seen_at = t)) := by
  induction l with
  | nil =>
      simp [List.orderedInsert, List.filter]
      split <;> simp_all
  | cons b bs ih =>
      by_cases hab : tsLe a b
      · rw [List.orderedInsert_of_le tsLe _ hab]
        by_cases hat : a.last_seen_at = t <;> simp [List.filter, hat]
      · have hb : b.last_seen_at < a.last_seen_at := by
          simpa [tsLe, not_le] using hab
        have : List.orderedInsert tsLe a (b :: bs) =
            b :: List.orderedInsert tsLe a bs := by
          simp [List.orderedInsert, hab]
        rw [this]
        by_cases hat : a.last_seen_at = t
        · have hbt : ¬ b.last_seen_at = t := by omega
          simp [List.filter, hbt, hat, ih]
        · by_cases hbt : b.last_seen_at = t <;> simp [List.filter, hbt, hat, ih]

/-- Stability of the per-tier sort: filtering the sorted tier by any fixed
timestamp yields exactly the filter of the unsorted tier — equal-timestamp
cards keep their original relative order. -/
theorem sortByLastSeen_filter_ts (l : List Card) (t : Int) :
    (sortByLastSeen l).filter (fun c => decide (c.last_seen_at = t)) =
      l.filter (fun c => decide (c.last_seen_at = t)) := by
  induction l with
  | nil => rfl
  | cons b bs ih =>
      show (List.orderedInsert tsLe b (sortByLastSeen bs)).filter _ = _
      rw [orderedInsert_filter_ts]
      by_cases hbt : b.last_seen_at = t <;> simp [List.filter, hbt, ih]

/-- A tier in which every card has the same timestamp is left entirely
unchanged by the sort. -/
theorem sortByLastSeen_of_const_ts (l : List Card) (t : Int)
    (h : ∀ c ∈ l, c.last_seen_at = t) : sortByLastSeen l = l := by
  have hall : ∀ c ∈ sortByLastSeen l, c.last_seen_at = t := fun c hc =>
    h c ((sortByLastSeen_perm l).mem_iff.mp hc)
  have h1 : (sortByLastSeen l).filter (fun c => decide (c.last_seen_at = t)) =
      sortByLastSeen l :=
    List.filter_eq_self.mpr fun c hc => by simp [hall c hc]
  have h2 : l.filter (fun c => decide (c.last_seen_at = t)) = l :=
    List.filter_eq_self.mpr fun c hc => by simp [h c hc]
  rw [← h1, sortByLastSeen_filter_ts, h2]

/-! ## Claim theorems -/

/-- C6: the builder is a total function (it is defined by filters, sorts,
and slices, none of which can fail) and degrades gracefully: an empty pool
gives the empty queue for every intensity, `intensity = 0` gives the empty
queue for every pool, and an empty tier contributes zero elements (its
slice is empty for every count). -/
theorem buildSession_never_fails :
    (∀ i : Int, buildSession [] i = []) ∧
    (∀ cards : List Card, buildSession cards 0 = []) ∧
    (∀ e : Int, jsSliceEnd ([] : List Card) e = []) := by
  have hnil : ∀ e : Int, jsSliceEnd ([] : List Card) e = [] := by
    intro e
    unfold jsSliceEnd
    split <;> simp
  refine ⟨?_, ?_, hnil⟩
  · intro i
    simp [buildSession, sortByLastSeen, hnil]
  · intro cards
    have h1 : nLow 0 = 0 := by decide
    have h2 : nMedium 0 = 0 := by decide
    have h3 : nMastered 0 = 0 := by decide
    have hz : ∀ l : List Card, jsSliceEnd l 0 = [] := by
      intro l
      unfold jsSliceEnd
      rw [if_neg (by omega)]
      simp
    simp [buildSession, h1, h2, h3, hz]

/-- C10: with a negative intensity the per-tier counts
`Math.round(intensity * f)` are negative and act as from-the-end offsets in
`slice(0, n)`, so the builder does not degrade to an empty queue: a pool of
100 low-tier cards with `intensity = -5` yields a queue of 92 cards
(`nLow = -3` keeps 97 of 100, the final `slice(0, -5)` drops 5 more). -/
theorem buildSession_neg_intensity_nonempty :
    (buildSession pool100 (-5)).length = 92 ∧ buildSession pool100 (-5) ≠ [] := by
  decide

/-- C2, counterexample: on 10 fresh cards (`confidence_score = 0`,
`last_seen_at = 0`) with `intensity = 10`, `buildSession` returns only 6
cards (`nLow = Math.round(10 * 0.6) = 6`), not all 10 — the output is not a
permutation of the pool. -/
theorem bootstrap_session_not_full :
    (buildSession pool10 10).length = 6 ∧ ¬ (buildSession pool10 10).Perm pool10 := by
  decide

/-- C4, counterexample: two low-tier cards sharing `last_seen_at = 0` come
out of `buildSession` in their fixed pool (insertion) order — the source
contains no random permutation, and the function is deterministic, so equal
timestamp cards never appear in a different relative order. -/
theorem tied_cards_fixed_order :
    buildSession [⟨1, 0, 0⟩, ⟨2, 0, 0⟩] 10 = [⟨1, 0, 0⟩, ⟨2, 0, 0⟩] := by
  decide

/-- C9, counterexample: for eight grades summing to 23 the exact quality
percentage is 57.5; rounded to the nearest integer (half up, the reading of
"rounded to the nearest integer" used throughout the spec) that is 58, but
the code computes `Math.round((23 / 40) * 100)` and the binary64 value of
`(23 / 40) * 100` is `57.5 - 2⁻⁴⁷`, so the summary reports 57. -/
theorem summary_tie_rounds_down :
    weightedAvg results23 = 57 ∧ specQualityPercent results23 = 58 := by
  decide

/-- C1, counterexample: at `intensity = 5` with 3 low, 2 medium and 1
mastered card the per-tier quotas are 3, 2, 1 (rounding pushes their sum to
6 > 5), every tier meets its quota, yet the final `slice(0, intensity)`
truncates the queue to 5 — so the output length is *not* the sum of the
per-tier contributions `min(quota, availability)`. -/
theorem length_ne_sum_of_caps :
    ((buildSession pool321 5).length : Int) ≠
      min (nLow 5) ((pool321.filter fun c => decide (c.confidence_score ≤ 2)).length : Int) +
      min (nMedium 5)
        ((pool321.filter fun c =>
          decide (c.confidence_score = 3 ∨ c.confidence_score = 4)).length : Int) +
      min (nMastered 5) ((pool321.filter fun c => decide (c.confidence_score = 5)).length : Int) := by
  decide

/-- C2, amended: on a 10-card pool of fresh cards (`confidence_score = 0`,
`last_seen_at = 0`) with `intensity = 10`, `buildSession` returns exactly
the first 6 cards of the pool in pool order (`nLow = Math.round(10 * 0.6) = 6`;
the stable sort leaves the all-equal-timestamp tier unchanged) — the
bootstrap session is shorter than requested, not a permutation of the pool. -/
theorem bootstrap_session_take_six (pool : List Card)
    (_hlen : pool.length = 10)
    (h : ∀ c ∈ pool, c.confidence_score = 0 ∧ c.last_seen_at = 0) :
    buildSession pool 10 = pool.take 6 := by
  have hlow : pool.filter (fun c => decide (c.confidence_score ≤ 2)) = pool :=
    List.filter_eq_self.mpr fun c hc => by simp [(h c hc).1]
  have hmed : pool.filter
      (fun c => decide (c.confidence_score = 3 ∨ c.confidence_score = 4)) = [] := by
    rw [List.filter_eq_nil_iff]
    intro c hc
    simp [(h c hc).1]
  have hmas : pool.filter (fun c => decide (c.confidence_score = 5)) = [] := by
    rw [List.filter_eq_nil_iff]
    intro c hc
    simp [(h c hc).1]
  have hsort : sortByLastSeen pool = pool :=
    sortByLastSeen_of_const_ts pool 0 fun c hc => (h c hc).2
  have h6 : nLow 10 = 6 := by decide
  have h3 : nMedium 10 = 3 := by decide
  have h1 : nMastered 10 = 1 := by decide
  simp only [buildSession, hlow, hmed, hmas, hsort, h6, h3, h1]
  have hse : ∀ (l : List Card) (n : Nat), jsSliceEnd l (n : Int) = l.take n := by
    intro l n
    unfold jsSliceEnd
    rw [if_neg (by omega)]
    simp
  have hnilse : ∀ e : Int, jsSliceEnd ([] : List Card) e = [] := by
    intro e
    unfold jsSliceEnd
    split <;> simp
  show jsSliceEnd (jsSliceEnd pool 6 ++ jsSliceEnd (sortByLastSeen []) 3 ++
      jsSliceEnd (sortByLastSeen []) 1) 10 = pool.take 6
  have : sortByLastSeen [] = [] := rfl
  rw [this, hnilse, hnilse]
  have e6 : ((6 : Nat) : Int) = 6 := rfl
  have e10 : ((10 : Nat) : Int) = 10 := rfl
  rw [← e6, hse, ← e10, hse]
  simp [List.take_take]

/-- C1, amended: for every pool and non-negative intensity the queue length
is `min(intensity, Σ_tier min(tier quota, tier availability))` — each tier
contributes `min(quota, availability)` and the final `slice(0, intensity)`
caps the total at `intensity` (rounding can push the quota sum above
`intensity`); in particular the length never exceeds `intensity`, and a
pool with 3 low, 2 medium, 1 mastered card at `intensity = 10` yields
exactly 6 cards. -/
theorem buildSession_length_eq (cards : List Card) (i : Int) (hi : 0 ≤ i) :
    ((buildSession cards i).length : Int) =
      min i
        (min (nLow i) ((cards.filter fun c => decide (c.confidence_score ≤ 2)).length : Int) +
         min (nMedium i)
           ((cards.filter fun c =>
             decide (c.confidence_score = 3 ∨ c.confidence_score = 4)).length : Int) +
         min (nMastered i)
           ((cards.filter fun c => decide (c.confidence_score = 5)).length : Int)) ∧
    ((buildSession cards i).length : Int) ≤ i := by
  have hnl : 0 ≤ nLow i := by unfold nLow; omega
  have hnm : 0 ≤ nMedium i := by unfold nMedium; omega
  have hns : 0 ≤ nMastered i := by unfold nMastered; omega
  have hlen : ∀ l : List Card, ((sortByLastSeen l).length : Int) = l.length := by
    intro l
    exact_mod_cast congrArg Nat.cast (sortByLastSeen_perm l).length_eq
  have key : ((buildSession cards i).length : Int) =
      min i
        (min (nLow i) ((cards.filter fun c => decide (c.confidence_score ≤ 2)).length : Int) +
         min (nMedium i)
           ((cards.filter fun c =>
             decide (c.confidence_score = 3 ∨ c.confidence_score = 4)).length : Int) +
         min (nMastered i)
           ((cards.filter fun c => decide (c.confidence_score = 5)).length : Int)) := by
    unfold buildSession
    rw [jsSliceEnd_length_of_nonneg _ _ hi]
    congr 1
    push_cast [List.length_append]
    rw [jsSliceEnd_length_of_nonneg _ _ hnl, jsSliceEnd_length_of_nonneg _ _ hnm,
      jsSliceEnd_length_of_nonneg _ _ hns, hlen, hlen, hlen]
  exact ⟨key, key ▸ min_le_left _ _⟩

/-- C1 witness: the amended equality evaluated at the spec's concrete
example — 3 low, 2 medium, 1 mastered card and `intensity = 10` give a
6-card queue (`min(10, min(6,3) + min(3,2) + min(1,1)) = 6`). -/
theorem buildSession_length_eq_witness :
    ((buildSession pool321 10).length : Int) =
      min 10
        (min (nLow 10) ((pool321.filter fun c => decide (c.confidence_score ≤ 2)).length : Int) +
         min (nMedium 10)
           ((pool321.filter fun c =>
             decide (c.confidence_score = 3 ∨ c.confidence_score = 4)).length : Int) +
         min (nMastered 10)
           ((pool321.filter fun c => decide (c.confidence_score = 5)).length : Int)) ∧
    ((buildSession pool321 10).length : Int) ≤ 10 :=
  buildSession_length_eq pool321 10 (by decide)

/-- C4, amended: there is no random permutation before the per-tier sort;
the sort is stable, so for each tier of `buildSession` and every timestamp
`t`, the cards of that tier having `last_seen_at = t` appear in the sorted
tier exactly in their original pool order (and `buildSession`, a pure
function with no randomness source, returns the identical queue on every
call with the same inputs). -/
theorem tier_sort_stable (cards : List Card) (t : Int) :
    ((sortByLastSeen (cards.filter fun c => decide (c.confidence_score ≤ 2))).filter
        (fun c => decide (c.last_seen_at = t)) =
      (cards.filter fun c => decide (c.confidence_score ≤ 2)).filter
        (fun c => decide (c.last_seen_at = t))) ∧
    ((sortByLastSeen (cards.filter fun c =>
        decide (c.confidence_score = 3 ∨ c.confidence_score = 4))).filter
        (fun c => decide (c.last_seen_at = t)) =
      (cards.filter fun c =>
        decide (c.confidence_score = 3 ∨ c.confidence_score = 4)).filter
        (fun c => decide (c.last_seen_at = t))) ∧
    ((sortByLastSeen (cards.filter fun c => decide (c.confidence_score = 5))).filter
        (fun c => decide (c.last_seen_at = t)) =
      (cards.filter fun c => decide (c.confidence_score = 5)).filter
        (fun c => decide (c.last_seen_at = t))) :=
  ⟨sortByLastSeen_filter_ts _ t, sortByLastSeen_filter_ts _ t, sortByLastSeen_filter_ts _ t⟩

/-- C3: for every pool and every intensity, the queue is three contiguous
blocks in tier order — no card of a later tier ever precedes a card of an
earlier tier — and inside a block the cards are ordered by `last_seen_at`
ascending.  Both facts at once: the queue is pairwise ordered by the
lexicographic relation (tier rank, then timestamp). -/
theorem buildSession_tier_blocks (cards : List Card) (i : Int) :
    List.Pairwise
      (fun a b => tierRank a < tierRank b ∨
        (tierRank a = tierRank b ∧ a.last_seen_at ≤ b.last_seen_at))
      (buildSession cards i) := by
  have memOf : ∀ (p : Card → Bool) (n : Int) c,
      c ∈ jsSliceEnd (sortByLastSeen (cards.filter p)) n → p c = true := by
    intro p n c hc
    exact List.of_mem_filter
      ((sortByLastSeen_perm _).mem_iff.mp ((jsSliceEnd_sublist _ _).subset hc))
  have sortedOf : ∀ (p : Card → Bool) (n : Int),
      List.Pairwise tsLe (jsSliceEnd (sortByLastSeen (cards.filter p)) n) := by
    intro p n
    exact List.Pairwise.sublist (jsSliceEnd_sublist _ _) (sortByLastSeen_sorted _)
  have rank1 : ∀ c, c ∈ jsSliceEnd
      (sortByLastSeen (cards.filter fun c => decide (c.confidence_score ≤ 2)))
      (nLow i) → tierRank c = 0 := by
    intro c hc
    have := memOf _ _ c hc
    simp only [decide_eq_true_eq] at this
    simp [tierRank, this]
  have rank2 : ∀ c, c ∈ jsSliceEnd
      (sortByLastSeen (cards.filter fun c =>
        decide (c.confidence_score = 3 ∨ c.confidence_score = 4)))
      (nMedium i) → tierRank c = 1 := by
    intro c hc
    have := memOf _ _ c hc
    simp only [decide_eq_true_eq] at this
    unfold tierRank
    rw [if_neg (by omega), if_neg (by omega)]
  have rank3 : ∀ c, c ∈ jsSliceEnd
      (sortByLastSeen (cards.filter fun c => decide (c.confidence_score = 5)))
      (nMastered i) → tierRank c = 2 := by
    intro c hc
    have := memOf _ _ c hc
    simp only [decide_eq_true_eq] at this
    unfold tierRank
    rw [if_neg (by omega), if_pos this]
  have pw1 : List.Pairwise
      (fun a b => tierRank a < tierRank b ∨
        (tierRank a = tierRank b ∧ a.last_seen_at ≤ b.last_seen_at))
      (jsSliceEnd (sortByLastSeen (cards.filter fun c => decide (c.confidence_score ≤ 2)))
        (nLow i)) :=
    List.Pairwise.imp_of_mem
      (fun ha hb hab => Or.inr ⟨by rw [rank1 _ ha, rank1 _ hb], hab⟩) (sortedOf _ (nLow i))
  have pw2 : List.Pairwise
      (fun a b => tierRank a < tierRank b ∨
        (tierRank a = tierRank b ∧ a.last_seen_at ≤ b.last_seen_at))
      (jsSliceEnd (sortByLastSeen (cards.filter fun c =>
        decide (c.confidence_score = 3 ∨ c.confidence_score = 4))) (nMedium i)) :=
    List.Pairwise.imp_of_mem
      (fun ha hb hab => Or.inr ⟨by rw [rank2 _ ha, rank2 _ hb], hab⟩) (sortedOf _ (nMedium i))
  have pw3 : List.Pairwise
      (fun a b => tierRank a < tierRank b ∨
        (tierRank a = tierRank b ∧ a.last_seen_at ≤ b.last_seen_at))
      (jsSliceEnd (sortByLastSeen (cards.filter fun c => decide (c.confidence_score = 5)))
        (nMastered i)) :=
    List.Pairwise.imp_of_mem
      (fun ha hb hab => Or.inr ⟨by rw [rank3 _ ha, rank3 _ hb], hab⟩) (sortedOf _ (nMastered i))
  have pw12 := List.pairwise_append.mpr
    ⟨pw1, pw2, fun a ha b hb => Or.inl (by rw [rank1 _ ha, rank2 _ hb]; omega)⟩
  have pw123 := List.pairwise_append.mpr
    ⟨pw12, pw3, fun a ha b hb => by
      rcases List.mem_append.mp ha with h1 | h2
      · exact Or.inl (by rw [rank1 _ h1, rank3 _ hb]; omega)
      · exact Or.inl (by rw [rank2 _ h2, rank3 _ hb]; omega)⟩
  simp only [buildSession]
  exact List.Pairwise.sublist (jsSliceEnd_sublist _ _) pw123

/-- C5: on a pool of pairwise-distinct cards, every queue element comes
from the pool and no card appears twice in the queue (the three tier
filters are mutually exclusive and each tier is sliced from a permutation
of a sublist of the pool). -/
theorem buildSession_mem_nodup (cards : List Card) (i : Int) (h : cards.Nodup) :
    (∀ c ∈ buildSession cards i, c ∈ cards) ∧ (buildSession cards i).Nodup := by
  have memOf : ∀ (p : Card → Bool) (n : Int) c,
      c ∈ jsSliceEnd (sortByLastSeen (cards.filter p)) n → c ∈ cards.filter p := by
    intro p n c hc
    exact (sortByLastSeen_perm _).mem_iff.mp ((jsSliceEnd_sublist _ _).subset hc)
  have ndOf : ∀ (p : Card → Bool) (n : Int),
      (jsSliceEnd (sortByLastSeen (cards.filter p)) n).Nodup := by
    intro p n
    exact List.Nodup.sublist (jsSliceEnd_sublist _ _)
      ((sortByLastSeen_perm _).nodup_iff.mpr (h.filter p))
  constructor
  · intro c hc
    have hc' := (jsSliceEnd_sublist _ _).subset hc
    rcases List.mem_append.mp hc' with h12 | h3
    · rcases List.mem_append.mp h12 with h1 | h2
      · exact List.mem_of_mem_filter (memOf _ _ c h1)
      · exact List.mem_of_mem_filter (memOf _ _ c h2)
    · exact List.mem_of_mem_filter (memOf _ _ c h3)
  · apply List.Nodup.sublist (jsSliceEnd_sublist _ _)
    refine List.nodup_append.mpr ⟨List.nodup_append.mpr ⟨ndOf _ _, ndOf _ _, ?_⟩, ndOf _ _, ?_⟩
    · intro a ha hb
      have h1 := List.of_mem_filter (memOf _ _ a ha)
      have h2 := List.of_mem_filter (memOf _ _ a hb)
      simp only [decide_eq_true_eq] at h1 h2
      omega
    · intro a ha hb
      have h3 := List.of_mem_filter (memOf _ _ a hb)
      simp only [decide_eq_true_eq] at h3
      rcases List.mem_append.mp ha with h1 | h2
      · have := List.of_mem_filter (memOf _ _ a h1)
        simp only [decide_eq_true_eq] at this
        omega
      · have := List.of_mem_filter (memOf _ _ a h2)
        simp only [decide_eq_true_eq] at this
        omega

/-- C5 witness: on the concrete mixed pool, the queue at intensity 10 stays
inside the pool and is duplicate-free. -/
theorem buildSession_mem_nodup_witness :
    (∀ c ∈ buildSession pool321 10, c ∈ pool321) ∧ (buildSession pool321 10).Nodup :=
  buildSession_mem_nodup pool321 10 (by decide)

/-- C7: a Grade(score) taken at `Presenting(i, back)` appends exactly
`{cardId: queue[i].id, score}` to the results, persists the new confidence
score and the current timestamp for that card through the card store
(`updateConfidence`), and moves to `Presenting(i+1, front)` when
`i + 1 < queue.length`, or to the terminal `Complete` state carrying the
full results list when `i + 1 = queue.length`. -/
theorem grade_transition (queue : List Card) (now : Int) (i : Nat)
    (res : List SessionResult) (db : Db) (log : List WriteEvent) (s : Int)
    (h : i < queue.length) :
    (i + 1 < queue.length →
      reviewStep queue now (.presenting i true res, db, log) (.grade s) =
        (.presenting (i + 1) false (res ++ [⟨(queue.get ⟨i, h⟩).id, s⟩]),
          updateConfidence (queue.get ⟨i, h⟩).id s now db,
          log ++ [⟨(queue.get ⟨i, h⟩).id, s, now⟩])) ∧
    (i + 1 = queue.length →
      reviewStep queue now (.presenting i true res, db, log) (.grade s) =
        (.complete (res ++ [⟨(queue.get ⟨i, h⟩).id, s⟩]),
          updateConfidence (queue.get ⟨i, h⟩).id s now db,
          log ++ [⟨(queue.get ⟨i, h⟩).id, s, now⟩])) := by
  constructor
  · intro hlt
    show (if h : i < queue.length then _ else _) = _
    rw [dif_pos h, if_neg (by omega)]
  · intro heq
    show (if h : i < queue.length then _ else _) = _
    rw [dif_pos h, if_pos (by omega)]

/-- C7 witness: on the concrete 2-card queue, grading the first card with
score 4 at the back side advances to `Presenting(1, front)` with results
`[{cardId: 11, score: 4}]`, and the store holds the new score and
timestamp. -/
theorem grade_transition_witness :
    reviewStep queue2 1000 (.presenting 0 true [], db3, []) (.grade 4) =
      (.presenting 1 false [⟨11, 4⟩], updateConfidence 11 4 1000 db3, [⟨11, 4, 1000⟩]) := by
  have := (grade_transition queue2 1000 0 [] db3 [] 4 (by decide)).1 (by decide)
  simpa [queue2] using this

/-- C8: each Grade causes exactly one card-store write, performed within the
same atomic step (the store returned by the step already contains it — the
`await updateConfidence(...)` precedes the state advance, nothing is
deferred or batched), and that write touches only the graded card's row,
setting only `confidence_score` and `last_seen_at`: the `notes` table is
untouched, the number of card rows is unchanged, and every row with a
different id is unchanged.  Exit writes nothing and leaves the store as it
is, and after an exit no action ever changes the store or the write log —
so an abandoned session keeps exactly the already-recorded grades. -/
theorem grade_write_frame (queue : List Card) (now : Int) (i : Nat)
    (res : List SessionResult) (db : Db) (log : List WriteEvent) (s : Int)
    (h : i < queue.length) :
    ((reviewStep queue now (.presenting i true res, db, log) (.grade s)).2.2 =
      log ++ [⟨(queue.get ⟨i, h⟩).id, s, now⟩]) ∧
    ((reviewStep queue now (.presenting i true res, db, log) (.grade s)).2.1 =
      updateConfidence (queue.get ⟨i, h⟩).id s now db) ∧
    ((updateConfidence (queue.get ⟨i, h⟩).id s now db).notes = db.notes) ∧
    ((updateConfidence (queue.get ⟨i, h⟩).id s now db).cards.length = db.cards.length) ∧
    (∀ r ∈ db.cards, r.id ≠ (queue.get ⟨i, h⟩).id →
      r ∈ (updateConfidence (queue.get ⟨i, h⟩).id s now db).cards) ∧
    (∀ r ∈ db.cards, r.id = (queue.get ⟨i, h⟩).id →
      { r with confidence_score := s, last_seen_at := now } ∈
        (updateConfidence (queue.get ⟨i, h⟩).id s now db).cards) ∧
    (reviewStep queue now (.presenting i true res, db, log) .exit =
      (.exited res, db, log)) ∧
    (∀ a, reviewStep queue now (.exited res, db, log) a = (.exited res, db, log)) := by
  refine ⟨?_, ?_, rfl, by simp [updateConfidence], ?_, ?_, rfl, fun a => rfl⟩
  · show ((if h : i < queue.length then _ else _ :
      LoopState × Db × List WriteEvent)).2.2 = _
    rw [dif_pos h]
  · show ((if h : i < queue.length then _ else _ :
      LoopState × Db × List WriteEvent)).2.1 = _
    rw [dif_pos h]
  · intro r hr hne
    simp only [updateConfidence, List.mem_map]
    exact ⟨r, hr, by rw [if_neg hne]⟩
  · intro r hr heq
    simp only [updateConfidence, List.mem_map]
    exact ⟨r, hr, by rw [if_pos heq]⟩

/-- C8 witness: on the concrete 3-card queue and store, grading the first
card (score 2 at time 500) then exiting records exactly one write and
changes only card row 21. -/
theorem grade_write_frame_witness :
    ((reviewStep queue3 500 (.presenting 0 true [], db3, []) (.grade 2)).2.2 =
      [] ++ [⟨(queue3.get ⟨0, by decide⟩).id, 2, 500⟩]) ∧
    ((reviewStep queue3 500 (.presenting 0 true [], db3, []) (.grade 2)).2.1 =
      updateConfidence (queue3.get ⟨0, by decide⟩).id 2 500 db3) ∧
    ((updateConfidence (queue3.get ⟨0, by decide⟩).id 2 500 db3).notes = db3.notes) ∧
    ((updateConfidence (queue3.get ⟨0, by decide⟩).id 2 500 db3).cards.length =
      db3.cards.length) ∧
    (∀ r ∈ db3.cards, r.id ≠ (queue3.get ⟨0, by decide⟩).id →
      r ∈ (updateConfidence (queue3.get ⟨0, by decide⟩).id 2 500 db3).cards) ∧
    (∀ r ∈ db3.cards, r.id = (queue3.get ⟨0, by decide⟩).id →
      { r with confidence_score := 2, last_seen_at := 500 } ∈
        (updateConfidence (queue3.get ⟨0, by decide⟩).id 2 500 db3).cards) ∧
    (reviewStep queue3 500 (.presenting 0 true [], db3, []) .exit =
      (.exited [], db3, [])) ∧
    (∀ a, reviewStep queue3 500 (.exited [], db3, []) a = (.exited [], db3, [])) :=
  grade_write_frame queue3 500 0 [] db3 [] 2 (by decide)

/-- C2 witness: the amended bootstrap statement evaluated on the concrete
10-card fresh pool. -/
theorem bootstrap_session_take_six_witness :
    buildSession pool10 10 = pool10.take 6 :=
  bootstrap_session_take_six pool10 (by decide) (by decide)

/-! ## Binary64 analysis of the session-summary percentage -/

theorem natLog2Aux_bounds :
    ∀ (fuel n : Nat), 0 < n → n < 2 ^ fuel →
      2 ^ natLog2Aux fuel n ≤ n ∧ n < 2 ^ (natLog2Aux fuel n + 1) := by
  intro fuel
  induction fuel with
  | zero =>
      intro n h1 h2
      simp at h2
      omega
  | succ f ih =>
      intro n h1 h2
      unfold natLog2Aux
      by_cases hn : n < 2
      · rw [if_pos hn]
        simp
        omega
      · rw [if_neg hn]
        have hpos : 0 < n / 2 := by omega
        have hpow : (2:Nat) ^ (f + 1) = 2 * 2 ^ f := by ring
        have hlt : n / 2 < 2 ^ f := by omega
        obtain ⟨hA, hB⟩ := ih (n / 2) hpos hlt
        have e1 : (2:Nat) ^ (natLog2Aux f (n / 2) + 1) = 2 * 2 ^ natLog2Aux f (n / 2) := by
          ring
        have e2 : (2:Nat) ^ (natLog2Aux f (n / 2) + 1 + 1) =
            2 * 2 ^ (natLog2Aux f (n / 2) + 1) := by ring
        omega

theorem natLog2_bounds (n : Nat) (h1 : 0 < n) (h2 : n < 2 ^ 300) :
    2 ^ natLog2 n ≤ n ∧ n < 2 ^ (natLog2 n + 1) :=
  natLog2Aux_bounds 300 n h1 h2

theorem rneDiv_err (a b : Int) (hb : 0 < b) :
    |(rneDiv a b : ℚ) - (a : ℚ) / b| ≤ 1 / 2 := by
  have hbQ : (0:ℚ) < (b:ℚ) := by exact_mod_cast hb
  have hbne : (b:ℚ) ≠ 0 := ne_of_gt hbQ
  have hdm : b * (a / b) + a % b = a := Int.ediv_add_emod a b
  have hr0 : 0 ≤ a % b := Int.emod_nonneg a (by omega)
  have hrb : a % b < b := Int.emod_lt_of_pos a hb
  have hcast : ((b * (a / b) + a % b : Int) : ℚ) = (a : ℚ) := by exact_mod_cast congrArg (fun z : Int => (z : ℚ)) hdm
  have key : (a : ℚ) / b = ((a / b : Int) : ℚ) + ((a % b : Int) : ℚ) / b := by
    rw [← hcast]
    push_cast
    field_simp
    ring
  have hfr0 : (0:ℚ) ≤ ((a % b : Int) : ℚ) / b :=
    div_nonneg (by exact_mod_cast hr0) hbQ.le
  have hfr1 : ((a % b : Int) : ℚ) / b < 1 := by
    rw [div_lt_one hbQ]
    exact_mod_cast hrb
  unfold rneDiv
  split_ifs with h1 h2 h3
  · have hhalf : ((a % b : Int) : ℚ) / b ≤ 1 / 2 := by
      rw [div_le_iff₀ hbQ]
      have h1Q : 2 * ((a % b : Int) : ℚ) < (b : ℚ) := by exact_mod_cast h1
      linarith
    rw [key, abs_le]
    constructor <;> linarith
  · have hhalf : 1 / 2 ≤ ((a % b : Int) : ℚ) / b := by
      rw [le_div_iff₀ hbQ]
      have h2Q : (b : ℚ) < 2 * ((a % b : Int) : ℚ) := by exact_mod_cast h2
      linarith
    rw [key]
    push_cast
    rw [abs_le]
    constructor <;> linarith
  · have htie : ((a % b : Int) : ℚ) / b = 1 / 2 := by
      have hbe : b = 2 * (a % b) := by omega
      rw [div_eq_iff hbne]
      have : (b : ℚ) = 2 * ((a % b : Int) : ℚ) := by exact_mod_cast hbe
      linarith
    rw [key, htie, abs_le]
    constructor <;> linarith
  · have htie : ((a % b : Int) : ℚ) / b = 1 / 2 := by
      have hbe : b = 2 * (a % b) := by omega
      rw [div_eq_iff hbne]
      have : (b : ℚ) = 2 * ((a % b : Int) : ℚ) := by exact_mod_cast hbe
      linarith
    rw [key, htie]
    push_cast
    rw [abs_le]
    constructor <;> linarith

theorem fl64Div_spec (a b : Int) (ha : 0 < a) (hb : 0 < b)
    (hub : (a : ℚ) / b < 2 ^ 52) (hlb : (1 : ℚ) / 2 ^ 88 ≤ (a : ℚ) / b) :
    0 < (fl64Div a b).1 ∧ (fl64Div a b).2 ≤ 140 ∧
      |((fl64Div a b).1 : ℚ) / 2 ^ (fl64Div a b).2 - (a : ℚ) / b| ≤
        ((a : ℚ) / b) / 2 ^ 52 := by
  have hbQ : (0:ℚ) < (b:ℚ) := by exact_mod_cast hb
  have haQ : (0:ℚ) < (a:ℚ) := by exact_mod_cast ha
  have hq0 : (0:ℚ) < (a:ℚ) / b := div_pos haQ hbQ
  -- b ≤ a * 2 ^ 140
  have h88 : (b:ℚ) ≤ (a:ℚ) * 2 ^ 88 := by
    rw [div_le_div_iff₀ (by positivity) hbQ] at hlb
    linarith
  have hblea : b ≤ a * 2 ^ 140 := by
    have : (b:ℚ) ≤ (a:ℚ) * 2 ^ 140 := by
      calc (b:ℚ) ≤ (a:ℚ) * 2 ^ 88 := h88
        _ ≤ (a:ℚ) * 2 ^ 140 := by
            apply mul_le_mul_of_nonneg_left _ haQ.le
            norm_num
    exact_mod_cast this
  have hn1 : 1 ≤ a * 2 ^ 140 / b := by
    rw [Int.le_ediv_iff_mul_le hb]
    linarith
  have hguard : ¬ (a * 2 ^ 140 / b ≤ 0) := by omega
  -- division facts for n := a * 2 ^ 140 / b
  have hmod0 : 0 ≤ (a * 2 ^ 140) % b := Int.emod_nonneg _ (by omega)
  have hmodb : (a * 2 ^ 140) % b < b := Int.emod_lt_of_pos _ hb
  have hdm : b * (a * 2 ^ 140 / b) + (a * 2 ^ 140) % b = a * 2 ^ 140 :=
    Int.ediv_add_emod _ b
  have hnleZ : (a * 2 ^ 140 / b) * b ≤ a * 2 ^ 140 := by nlinarith [hmod0, hdm]
  have hngtZ : a * 2 ^ 140 < ((a * 2 ^ 140 / b) + 1) * b := by nlinarith [hmodb, hdm]
  have hq1 : ((a * 2 ^ 140 / b : Int) : ℚ) ≤ (a:ℚ) / b * 2 ^ 140 := by
    rw [div_mul_eq_mul_div, le_div_iff₀ hbQ]
    have : (((a * 2 ^ 140 / b) * b : Int) : ℚ) ≤ ((a * 2 ^ 140 : Int) : ℚ) := by
      exact_mod_cast hnleZ
    push_cast at this ⊢
    linarith
  have hq2 : (a:ℚ) / b * 2 ^ 140 < ((a * 2 ^ 140 / b : Int) : ℚ) + 1 := by
    rw [div_mul_eq_mul_div, div_lt_iff₀ hbQ]
    have : ((a * 2 ^ 140 : Int) : ℚ) < (((a * 2 ^ 140 / b + 1) * b : Int) : ℚ) := by
      exact_mod_cast hngtZ
    push_cast at this ⊢
    linarith
  -- log2 bounds
  have hnnat_pos : 0 < (a * 2 ^ 140 / b).toNat := by omega
  have hnlt192Q : ((a * 2 ^ 140 / b : Int) : ℚ) < 2 ^ 192 := by
    calc ((a * 2 ^ 140 / b : Int) : ℚ) ≤ (a:ℚ) / b * 2 ^ 140 := hq1
      _ < 2 ^ 52 * 2 ^ 140 := by
          apply mul_lt_mul_of_pos_right hub (by positivity)
      _ = 2 ^ 192 := by norm_num
  have hnlt192 : a * 2 ^ 140 / b < 2 ^ 192 := by exact_mod_cast hnlt192Q
  have hnnat_lt : (a * 2 ^ 140 / b).toNat < 2 ^ 300 := by
    have h1 : (a * 2 ^ 140 / b).toNat < 2 ^ 192 := by omega
    have h2 : (2:Nat) ^ 192 < 2 ^ 300 := Nat.pow_lt_pow_right (by norm_num) (by norm_num)
    omega
  obtain ⟨hL1, hL2⟩ := natLog2_bounds _ hnnat_pos hnnat_lt
  -- name L
  set L := natLog2 (a * 2 ^ 140 / b).toNat with hLdef
  -- L < 192
  have hL192 : L < 192 := by
    have hpowlt : (2:Nat) ^ L < 2 ^ 192 := by
      have : (a * 2 ^ 140 / b).toNat < 2 ^ 192 := by omega
      omega
    exact (Nat.pow_lt_pow_iff_right (by norm_num)).mp hpowlt
  -- L ≥ 52 (so that k ≤ 140)
  have hcast2 : ((a * 2 ^ 140 / b : Int) : ℚ) + 1 ≤ (2:ℚ) ^ (L + 1) := by
    have h1 : (a * 2 ^ 140 / b).toNat + 1 ≤ 2 ^ (L + 1) := hL2
    have h2 : (((a * 2 ^ 140 / b).toNat : Int) : ℚ) = ((a * 2 ^ 140 / b : Int) : ℚ) := by
      congr 1
      omega
    calc ((a * 2 ^ 140 / b : Int) : ℚ) + 1 = (((a * 2 ^ 140 / b).toNat : Int) : ℚ) + 1 := by
          rw [h2]
      _ ≤ (2:ℚ) ^ (L + 1) := by exact_mod_cast h1
  have hcast1 : (2:ℚ) ^ L ≤ ((a * 2 ^ 140 / b : Int) : ℚ) := by
    have h2 : (((a * 2 ^ 140 / b).toNat : Int) : ℚ) = ((a * 2 ^ 140 / b : Int) : ℚ) := by
      congr 1
      omega
    rw [← h2]
    exact_mod_cast hL1
  have hL52 : 52 ≤ L := by
    by_contra hcon
    push_neg at hcon
    -- then 2^(L+1) ≤ 2^52, but q * 2^140 < 2^(L+1) and q ≥ 1/2^88 give 2^52 ≤ q * 2^140
    have hb1 : (1:ℚ) / 2 ^ 88 * 2 ^ 140 ≤ (a:ℚ) / b * 2 ^ 140 := by
      apply mul_le_mul_of_nonneg_right hlb (by positivity)
    have hb2 : (1:ℚ) / 2 ^ 88 * 2 ^ 140 = 2 ^ 52 := by norm_num
    have hb3 : (a:ℚ) / b * 2 ^ 140 < 2 ^ (L + 1) := lt_of_lt_of_le hq2 hcast2
    have hb4 : (2:ℚ) ^ (L + 1) ≤ 2 ^ 52 := by
      apply pow_le_pow_right₀ (by norm_num)
      omega
    linarith
  -- k
  have hkval : (52 - ((L : Int) - 140)).toNat = 192 - L := by omega
  have hk140 : 192 - L ≤ 140 := by omega
  have hkpos : 0 < 192 - L := by omega
  -- the unfolding of fl64Div
  have hunfold : fl64Div a b = (rneDiv (a * 2 ^ (192 - L)) b, 192 - L) := by
    show (if a * 2 ^ 140 / b ≤ 0 then ((0:Int), (0:Nat)) else _) = _
    rw [if_neg hguard]
    rw [← hLdef, hkval]
  -- error bound for the mantissa
  have herr := rneDiv_err (a * 2 ^ (192 - L)) b hb
  have hsplit : ((a * 2 ^ (192 - L) : Int) : ℚ) / b = (a:ℚ) / b * 2 ^ (192 - L) := by
    push_cast
    ring
  rw [hsplit] at herr
  -- divide the bound by 2 ^ (192 - L)
  have hpk : (0:ℚ) < 2 ^ (192 - L) := by positivity
  have herr2 : |((rneDiv (a * 2 ^ (192 - L)) b : Int) : ℚ) / 2 ^ (192 - L) - (a:ℚ) / b| ≤
      1 / (2 * 2 ^ (192 - L)) := by
    have hrw : ((rneDiv (a * 2 ^ (192 - L)) b : Int) : ℚ) / 2 ^ (192 - L) - (a:ℚ) / b =
        (((rneDiv (a * 2 ^ (192 - L)) b : Int) : ℚ) - (a:ℚ) / b * 2 ^ (192 - L)) /
          2 ^ (192 - L) := by
      field_simp
      ring
    rw [hrw, abs_div, abs_of_pos hpk, div_le_div_iff₀ hpk (by positivity)]
    calc |((rneDiv (a * 2 ^ (192 - L)) b : Int) : ℚ) - (a:ℚ) / b * 2 ^ (192 - L)| *
          (2 * 2 ^ (192 - L)) ≤ (1 / 2) * (2 * 2 ^ (192 - L)) := by
          apply mul_le_mul_of_nonneg_right herr (by positivity)
      _ = 1 * 2 ^ (192 - L) := by ring
  -- 1 / (2 * 2 ^ (192 - L)) ≤ q / 2 ^ 52
  have hqlb : (2:ℚ) ^ L / 2 ^ 140 ≤ (a:ℚ) / b := by
    rw [div_le_iff₀ (by positivity : (0:ℚ) < (2:ℚ) ^ 140)]
    calc (2:ℚ) ^ L ≤ ((a * 2 ^ 140 / b : Int) : ℚ) := hcast1
      _ ≤ (a:ℚ) / b * 2 ^ 140 := hq1
  have hsmall : (1:ℚ) / (2 * 2 ^ (192 - L)) ≤ ((a:ℚ) / b) / 2 ^ 52 := by
    rw [div_le_div_iff₀ (by positivity) (by positivity)]
    have hLsum : (2:ℚ) ^ L * 2 ^ (192 - L) = 2 ^ 192 := by
      rw [← pow_add]
      congr 1
      omega
    have expand : ((a:ℚ) / b) * (2 * 2 ^ (192 - L)) ≥
        ((2:ℚ) ^ L / 2 ^ 140) * (2 * 2 ^ (192 - L)) := by
      apply mul_le_mul_of_nonneg_right hqlb (by positivity)
    have hval : ((2:ℚ) ^ L / 2 ^ 140) * (2 * 2 ^ (192 - L)) = 2 ^ 53 := by
      rw [div_mul_eq_mul_div]
      rw [show (2:ℚ) ^ L * (2 * 2 ^ (192 - L)) = 2 * ((2:ℚ) ^ L * 2 ^ (192 - L)) by ring]
      rw [hLsum]
      norm_num
    rw [hval] at expand
    have h5253 : (1:ℚ) * 2 ^ 52 ≤ 2 ^ 53 := by norm_num
    nlinarith [expand, h5253, hq0]
  have herr3 : |((rneDiv (a * 2 ^ (192 - L)) b : Int) : ℚ) / 2 ^ (192 - L) - (a:ℚ) / b| ≤
      ((a:ℚ) / b) / 2 ^ 52 := le_trans herr2 hsmall
  -- mantissa positive
  have hmpos : 0 < rneDiv (a * 2 ^ (192 - L)) b := by
    by_contra hcon
    push_neg at hcon
    have hmle : ((rneDiv (a * 2 ^ (192 - L)) b : Int) : ℚ) ≤ 0 := by exact_mod_cast hcon
    have hlow := (abs_le.mp herr3).1
    have hc1 : (a:ℚ) / b - ((a:ℚ) / b) / 2 ^ 52 ≤
        ((rneDiv (a * 2 ^ (192 - L)) b : Int) : ℚ) / 2 ^ (192 - L) := by linarith
    have hc2 : ((rneDiv (a * 2 ^ (192 - L)) b : Int) : ℚ) / 2 ^ (192 - L) ≤ 0 :=
      div_nonpos_of_nonpos_of_nonneg hmle hpk.le
    have hc3 : (0:ℚ) < (a:ℚ) / b - ((a:ℚ) / b) / 2 ^ 52 := by
      have h2pow : (1:ℚ) < 2 ^ 52 := by norm_num
      have := div_lt_self hq0 h2pow
      linarith
    linarith
  rw [hunfold]
  exact ⟨hmpos, hk140, herr3⟩

theorem sumScores_shift (l : List SessionResult) :
    ∀ a : Int, l.foldl (fun sum r => sum + r.score) a =
      a + l.foldl (fun sum r => sum + r.score) 0 := by
  induction l with
  | nil => intro a; simp
  | cons b bs ih =>
      intro a
      simp only [List.foldl_cons]
      rw [ih (a + b.score), ih (0 + b.score)]
      ring

theorem sumScores_bounds (results : List SessionResult)
    (hsc : ∀ r ∈ results, 1 ≤ r.score ∧ r.score ≤ 5) :
    (results.length : Int) ≤ sumScores results ∧
      sumScores results ≤ 5 * results.length := by
  induction results with
  | nil => simp [sumScores]
  | cons b bs ih =>
      have hb := hsc b (List.mem_cons_self b bs)
      have hbs := ih fun r hr => hsc r (List.mem_cons_of_mem b hr)
      have hx : sumScores (b :: bs) = b.score + sumScores bs := by
        unfold sumScores
        rw [List.foldl_cons, sumScores_shift]
        ring
      rw [hx]
      simp only [List.length_cons]
      push_cast
      omega

theorem sessionCounts_total (results : List SessionResult)
    (hsc : ∀ r ∈ results, 1 ≤ r.score ∧ r.score ≤ 5) :
    ((sessionCounts results).map Prod.snd).sum = results.length := by
  induction results with
  | nil => simp [sessionCounts]
  | cons b bs ih =>
      have hb := hsc b (List.mem_cons_self b bs)
      have ih' := ih fun r hr => hsc r (List.mem_cons_of_mem b hr)
      have h15 : b.score = 1 ∨ b.score = 2 ∨ b.score = 3 ∨ b.score = 4 ∨ b.score = 5 := by
        omega
      simp only [sessionCounts, List.map_cons, List.map_nil, List.sum_cons,
        List.sum_nil] at ih' ⊢
      rcases h15 with h | h | h | h | h <;>
        simp only [List.filter_cons, h, decide_True, decide_False, if_true, if_false,
          List.length_cons, decide_eq_true_eq, show ((1:Int) = 2) = False by simp,
          reduceIte] <;>
        simp_all <;> omega

theorem ediv_pow2_floor (A : Int) (K : Nat) :
    A / (2 ^ K : Int) = ⌊(A : ℚ) / (2 : ℚ) ^ K⌋ := by
  have h1 := Rat.floor_intCast_div_natCast A (2 ^ K)
  have h2 : ((2 ^ K : Nat) : Int) = (2 ^ K : Int) := by push_cast; ring
  have h3 : (((2 ^ K : Nat) : ℚ)) = (2 : ℚ) ^ K := by push_cast; ring
  rw [← h2, ← h1, h3]

/-- C9, amended: for a non-empty results list (of any length the
application can produce — the bound `2 ^ 40` is astronomically above the
UI's ≤ 100-card sessions), the reported quality percentage is a nearest
integer to the exact value `sum(scores) / (count * 5) * 100`: it differs
from it by at most 1/2.  Exact `.5` ties may resolve downward — the
binary64 evaluation decides — which is the only deviation from
round-half-up.  The per-bucket counts 1–5 sum to the number of graded
cards. -/
theorem summary_quality_nearest (results : List SessionResult)
    (hne : results ≠ [])
    (hlen : results.length ≤ 2 ^ 40)
    (hsc : ∀ r ∈ results, 1 ≤ r.score ∧ r.score ≤ 5) :
    |(weightedAvg results : ℚ) -
        (sumScores results : ℚ) * 100 / ((results.length : ℚ) * 5)| ≤ 1 / 2 ∧
      ((sessionCounts results).map Prod.snd).sum = results.length := by
  refine ⟨?_, sessionCounts_total results hsc⟩
  have htpos : (0 : Int) < (results.length : Int) := by
    have := List.length_pos.mpr hne
    omega
  have hw : weightedAvg results =
      (2 * (fl64Div (100 * (fl64Div (sumScores results) ((results.length : Int) * 5)).1)
          (2 ^ (fl64Div (sumScores results) ((results.length : Int) * 5)).2)).1 +
        2 ^ (fl64Div (100 * (fl64Div (sumScores results) ((results.length : Int) * 5)).1)
          (2 ^ (fl64Div (sumScores results) ((results.length : Int) * 5)).2)).2) /
      2 ^ ((fl64Div (100 * (fl64Div (sumScores results) ((results.length : Int) * 5)).1)
          (2 ^ (fl64Div (sumScores results) ((results.length : Int) * 5)).2)).2 + 1) := by
    show (if 0 < (results.length : Int) then _ else _) = _
    rw [if_pos htpos]
  obtain ⟨hs1, hs2⟩ := sumScores_bounds results hsc
  set t : Int := (results.length : Int) with htdef
  set s : Int := sumScores results with hsdef
  have hspos : 0 < s := by omega
  have htQ : (0:ℚ) < (t:ℚ) := by exact_mod_cast htpos
  have hb1 : (0:Int) < t * 5 := by omega
  have hb1Q : (0:ℚ) < ((t * 5 : Int) : ℚ) := by exact_mod_cast hb1
  have hs1Q : (t:ℚ) ≤ (s:ℚ) := by exact_mod_cast hs1
  have hs2Q : (s:ℚ) ≤ 5 * (t:ℚ) := by exact_mod_cast hs2
  -- the exact quotient of stage 1
  have hq1ub : (s:ℚ) / ((t * 5 : Int) : ℚ) ≤ 1 := by
    rw [div_le_one hb1Q]
    push_cast
    linarith
  have hq1lb : (1:ℚ) / 5 ≤ (s:ℚ) / ((t * 5 : Int) : ℚ) := by
    rw [div_le_div_iff₀ (by norm_num) hb1Q]
    push_cast
    linarith
  have hq1pos : (0:ℚ) < (s:ℚ) / ((t * 5 : Int) : ℚ) :=
    div_pos (by exact_mod_cast hspos) hb1Q
  obtain ⟨hm1pos, hk1le, herr1⟩ := fl64Div_spec s (t * 5) hspos hb1
    (lt_of_le_of_lt hq1ub (by norm_num))
    (le_trans (by norm_num) hq1lb)
  set m1 : Int := (fl64Div s (t * 5)).1 with hm1def
  set k1 : Nat := (fl64Div s (t * 5)).2 with hk1def
  have hpk1 : (0:ℚ) < (2:ℚ) ^ k1 := by positivity
  have herr1' : |(m1:ℚ) / 2 ^ k1 - (s:ℚ) / ((t * 5 : Int) : ℚ)| ≤ (1:ℚ) / 2 ^ 52 := by
    refine le_trans herr1 ?_
    apply div_le_div_of_nonneg_right ?_ (by positivity)
    · exact hq1ub
  -- stage 2 input
  have hx_eq : ((100 * m1 : Int) : ℚ) / ((2 ^ k1 : Int) : ℚ) = 100 * ((m1:ℚ) / 2 ^ k1) := by
    push_cast
    ring
  have hm1k1_lb : (s:ℚ) / ((t * 5 : Int) : ℚ) - 1 / 2 ^ 52 ≤ (m1:ℚ) / 2 ^ k1 := by
    have := (abs_le.mp herr1').1
    linarith
  have hm1k1_ub : (m1:ℚ) / 2 ^ k1 ≤ (s:ℚ) / ((t * 5 : Int) : ℚ) + 1 / 2 ^ 52 := by
    have := (abs_le.mp herr1').2
    linarith
  have ha2 : (0:Int) < 100 * m1 := by omega
  have hb2 : (0:Int) < (2 ^ k1 : Int) := by positivity
  have hub2 : ((100 * m1 : Int) : ℚ) / ((2 ^ k1 : Int) : ℚ) < 2 ^ 52 := by
    rw [hx_eq]
    have h1 : (m1:ℚ) / 2 ^ k1 ≤ 1 + 1 / 2 ^ 52 := le_trans hm1k1_ub (by linarith)
    have h2 : (200:ℚ) < 2 ^ 52 := by norm_num
    have h3 : (1:ℚ) / 2 ^ 52 ≤ 1 := by norm_num
    nlinarith
  have hlb2 : (1:ℚ) / 2 ^ 88 ≤ ((100 * m1 : Int) : ℚ) / ((2 ^ k1 : Int) : ℚ) := by
    rw [hx_eq]
    have h1 : (1:ℚ) / 5 - 1 / 2 ^ 52 ≤ (m1:ℚ) / 2 ^ k1 := le_trans (by linarith) hm1k1_lb
    have h2 : (1:ℚ) / 2 ^ 52 ≤ 1 / 10 := by norm_num
    have h3 : (1:ℚ) / 2 ^ 88 ≤ 10 := by norm_num
    nlinarith
  obtain ⟨hm2pos, hk2le, herr2⟩ := fl64Div_spec (100 * m1) (2 ^ k1) ha2 hb2 hub2 hlb2
  set m2 : Int := (fl64Div (100 * m1) (2 ^ k1)).1 with hm2def
  set k2 : Nat := (fl64Div (100 * m1) (2 ^ k1)).2 with hk2def
  have hpk2 : (0:ℚ) < (2:ℚ) ^ k2 := by positivity
  -- bound |m2 / 2^k2 - 100 * q1|
  have hxub : ((100 * m1 : Int) : ℚ) / ((2 ^ k1 : Int) : ℚ) ≤ 202 := by
    rw [hx_eq]
    have h3 : (1:ℚ) / 2 ^ 52 ≤ 1 := by norm_num
    nlinarith [hm1k1_ub, hq1ub]
  have herr2' : |(m2:ℚ) / 2 ^ k2 - ((100 * m1 : Int) : ℚ) / ((2 ^ k1 : Int) : ℚ)| ≤
      (202:ℚ) / 2 ^ 52 := by
    refine le_trans herr2 ?_
    apply div_le_div_of_nonneg_right hxub (by positivity)
  have htri : |(m2:ℚ) / 2 ^ k2 - 100 * ((s:ℚ) / ((t * 5 : Int) : ℚ))| ≤ (302:ℚ) / 2 ^ 52 := by
    have h1 := abs_sub_le ((m2:ℚ) / 2 ^ k2)
      (((100 * m1 : Int) : ℚ) / ((2 ^ k1 : Int) : ℚ))
      (100 * ((s:ℚ) / ((t * 5 : Int) : ℚ)))
    have h2 : |((100 * m1 : Int) : ℚ) / ((2 ^ k1 : Int) : ℚ) -
        100 * ((s:ℚ) / ((t * 5 : Int) : ℚ))| ≤ (100:ℚ) / 2 ^ 52 := by
      rw [hx_eq]
      rw [show (100:ℚ) * ((m1:ℚ) / 2 ^ k1) - 100 * ((s:ℚ) / ((t * 5 : Int) : ℚ)) =
        100 * ((m1:ℚ) / 2 ^ k1 - (s:ℚ) / ((t * 5 : Int) : ℚ)) by ring]
      rw [abs_mul, abs_of_pos (by norm_num : (0:ℚ) < 100)]
      calc (100:ℚ) * |(m1:ℚ) / 2 ^ k1 - (s:ℚ) / ((t * 5 : Int) : ℚ)| ≤
          100 * (1 / 2 ^ 52) := by
            apply mul_le_mul_of_nonneg_left herr1' (by norm_num)
        _ = 100 / 2 ^ 52 := by ring
    calc |(m2:ℚ) / 2 ^ k2 - 100 * ((s:ℚ) / ((t * 5 : Int) : ℚ))| ≤
        |(m2:ℚ) / 2 ^ k2 - ((100 * m1 : Int) : ℚ) / ((2 ^ k1 : Int) : ℚ)| +
          |((100 * m1 : Int) : ℚ) / ((2 ^ k1 : Int) : ℚ) -
            100 * ((s:ℚ) / ((t * 5 : Int) : ℚ))| := h1
      _ ≤ (202:ℚ) / 2 ^ 52 + 100 / 2 ^ 52 := by linarith [herr2', h2]
      _ = (302:ℚ) / 2 ^ 52 := by ring
  -- Math.round
  have hfloor : weightedAvg results = ⌊(m2:ℚ) / 2 ^ k2 + 1 / 2⌋ := by
    rw [hw, ediv_pow2_floor]
    congr 1
    push_cast
    field_simp
    ring
  have hfl1 : ((⌊(m2:ℚ) / 2 ^ k2 + 1 / 2⌋ : Int) : ℚ) ≤ (m2:ℚ) / 2 ^ k2 + 1 / 2 :=
    Int.floor_le _
  have hfl2 : (m2:ℚ) / 2 ^ k2 + 1 / 2 < (⌊(m2:ℚ) / 2 ^ k2 + 1 / 2⌋ : Int) + 1 :=
    Int.lt_floor_add_one _
  have hround : |((weightedAvg results : Int) : ℚ) - (m2:ℚ) / 2 ^ k2| ≤ 1 / 2 := by
    rw [hfloor]
    rw [abs_le]
    constructor <;> linarith
  -- combine
  have hcomb : |((weightedAvg results : Int) : ℚ) -
      100 * ((s:ℚ) / ((t * 5 : Int) : ℚ))| ≤ 1 / 2 + 302 / 2 ^ 52 := by
    have h1 := abs_sub_le ((weightedAvg results : Int) : ℚ) ((m2:ℚ) / 2 ^ k2)
      (100 * ((s:ℚ) / ((t * 5 : Int) : ℚ)))
    linarith [hround, htri]
  -- integrality
  have hEeq : (100:ℚ) * ((s:ℚ) / ((t * 5 : Int) : ℚ)) = (s:ℚ) * 100 / ((t:ℚ) * 5) := by
    push_cast
    field_simp
    ring
  have hN : ((weightedAvg results : Int) : ℚ) - (s:ℚ) * 100 / ((t:ℚ) * 5) =
      ((weightedAvg results * t - 20 * s : Int) : ℚ) / (t:ℚ) := by
    push_cast
    field_simp
    ring
  have habsN : |((weightedAvg results * t - 20 * s : Int) : ℚ)| / (t:ℚ) ≤
      1 / 2 + 302 / 2 ^ 52 := by
    rw [hEeq, hN, abs_div, abs_of_pos htQ] at hcomb
    exact hcomb
  have htlenQ : (t:ℚ) ≤ 2 ^ 40 := by
    have ht40 : t ≤ (2:Int) ^ 40 := by omega
    exact_mod_cast ht40
  have hNsmall : (2:Int) * |weightedAvg results * t - 20 * s| ≤ t := by
    by_contra hcon
    push_neg at hcon
    have hconQ : (t:ℚ) + 1 ≤ 2 * |((weightedAvg results * t - 20 * s : Int) : ℚ)| := by
      have : t + 1 ≤ 2 * |weightedAvg results * t - 20 * s| := by omega
      calc (t:ℚ) + 1 = ((t + 1 : Int) : ℚ) := by push_cast; ring
        _ ≤ ((2 * |weightedAvg results * t - 20 * s| : Int) : ℚ) := by exact_mod_cast this
        _ = 2 * |((weightedAvg results * t - 20 * s : Int) : ℚ)| := by
            push_cast
            ring
    have hup : |((weightedAvg results * t - 20 * s : Int) : ℚ)| ≤
        (t:ℚ) * (1 / 2 + 302 / 2 ^ 52) := by
      rw [div_le_iff₀ htQ] at habsN
      linarith
    have hsm : (t:ℚ) * (302 / 2 ^ 52) ≤ 1 / 10 := by
      have h1 : (302:ℚ) / 2 ^ 52 * 2 ^ 40 ≤ 1 / 10 := by norm_num
      nlinarith [htlenQ, htQ]
    nlinarith [hconQ, hup, hsm, htQ]
  have hfinal : |((weightedAvg results * t - 20 * s : Int) : ℚ)| / (t:ℚ) ≤ 1 / 2 := by
    rw [div_le_iff₀ htQ]
    have h2 : ((2 * |weightedAvg results * t - 20 * s| : Int) : ℚ) ≤ (t:ℚ) := by
      exact_mod_cast hNsmall
    have h3 : ((2 * |weightedAvg results * t - 20 * s| : Int) : ℚ) =
        2 * |((weightedAvg results * t - 20 * s : Int) : ℚ)| := by
      push_cast
      ring
    rw [h3] at h2
    linarith
  calc |((weightedAvg results : Int) : ℚ) - (s:ℚ) * 100 / ((t:ℚ) * 5)| =
      |((weightedAvg results * t - 20 * s : Int) : ℚ) / (t:ℚ)| := by rw [hN]
    _ = |((weightedAvg results * t - 20 * s : Int) : ℚ)| / (t:ℚ) := by
        rw [abs_div, abs_of_pos htQ]
    _ ≤ 1 / 2 := hfinal

/-- C9 witness: the amended nearest-integer bound and the bucket-count
identity evaluated at the concrete eight-grade list (exact percentage 57.5,
reported value 57, distance exactly 1/2). -/
theorem summary_quality_nearest_witness :
    |(weightedAvg results23 : ℚ) -
        (sumScores results23 : ℚ) * 100 / ((results23.length : ℚ) * 5)| ≤ 1 / 2 ∧
      ((sessionCounts results23).map Prod.snd).sum = results23.length :=
  summary_quality_nearest results23 (by decide) (by decide) (by decide)
